import Mathlib

set_option maxHeartbeats 1600000

/- Verification development for the rust-iost repository: the binary codec whose
   generation logic is driven by iostio-core-derive (Read, Write, NumBytes,
   Digest, Table capabilities), the root-path configuration resolver of
   iostio-core-derive/src/lib.rs, and the HTTP response classification of
   chain/src/lib.rs. -/

/-- Decoder failure taxonomy.  Modelled from the spec: buffer underrun, invalid
discriminant byte, malformed variable-length integer (the generated Read logic
in derive_read.rs is not among the available sources). -/
inductive DecodeErr
  | underrun
  | badDiscriminant
  | malformedVarint
deriving DecidableEq, Repr

/-- Modelled from the spec: variable-length unsigned integer encoding, 7-bit
little-endian groups, high bit set on every byte except the last group. -/
def encodeVarint (n : Nat) : List Nat :=
  if n < 128 then [n]
  else (n % 128 + 128) :: encodeVarint (n / 128)
termination_by n
decreasing_by simp_wf; omega

/-- Modelled from the spec: the byte length of the varint encoding of `n`
(the number of 7-bit groups). -/
def varintLen (n : Nat) : Nat :=
  if n < 128 then 1 else 1 + varintLen (n / 128)
termination_by n
decreasing_by simp_wf; omega

/-- Modelled from the spec: varint decoding with a bounded remaining width; the
continuation sequence must terminate within the maximum representable width
(64-bit, ten 7-bit groups), else the varint is malformed. -/
def readVarintW : Nat → List Nat → Except DecodeErr (Nat × List Nat)
  | 0, _ => .error .malformedVarint
  | _ + 1, [] => .error .underrun
  | w + 1, b :: r =>
    if b < 128 then .ok (b, r)
    else
      match readVarintW w r with
      | .ok (m, r2) => .ok (b - 128 + 128 * m, r2)
      | .error e => .error e

/-- Modelled from the spec: varint decoder entry point (64-bit maximum width,
hence at most ten bytes). -/
def readVarint (buf : List Nat) : Except DecodeErr (Nat × List Nat) :=
  readVarintW 10 buf

/-- Modelled from the spec: read exactly `n` raw bytes from the front of the
buffer, failing with an underrun when fewer remain. -/
def readBytes : Nat → List Nat → Except DecodeErr (List Nat × List Nat)
  | 0, buf => .ok ([], buf)
  | _ + 1, [] => .error .underrun
  | n + 1, b :: r =>
    match readBytes n r with
    | .ok (s, r2) => .ok (b :: s, r2)
    | .error e => .error e

/-- Little-endian value of a byte list (first byte is least significant). -/
def leNat : List Nat → Nat
  | [] => 0
  | b :: bs => b + 256 * leNat bs

/-- Modelled from the spec: the structural shape of a generated type.  Products
carry an ordered field list, sums an ordered variant list whose zero-based
position is the discriminant. -/
inductive Ty
  | u8
  | u16
  | u32
  | boolean
  | varnat
  | str
  | seq (elem : Ty)
  | opt (elem : Ty)
  | prod (fields : List Ty)
  | sum (variants : List Ty)
deriving Repr

/-- Modelled from the spec: runtime values of generated types. -/
inductive Value
  | u8 (n : Nat)
  | u16 (n : Nat)
  | u32 (n : Nat)
  | boolean (b : Bool)
  | varnat (n : Nat)
  | str (s : List Nat)
  | seq (vs : List Value)
  | opt (v : Option Value)
  | prod (fs : List Value)
  | sum (tag : Nat) (payload : Value)
deriving Repr

mutual

/-- Modelled from the spec: the generated Write logic (derive_write.rs is not
among the available sources).  Fixed-width integers little-endian, booleans one
byte, varint length prefixes for strings and sequences, one presence byte for
optionals, field concatenation for products, a one-byte zero-based discriminant
followed by the active payload for sums. -/
def serialize : Value → List Nat
  | .u8 n => [n % 256]
  | .u16 n => [n % 256, n / 256 % 256]
  | .u32 n => [n % 256, n / 256 % 256, n / 65536 % 256, n / 16777216 % 256]
  | .boolean b => [if b then 1 else 0]
  | .varnat n => encodeVarint n
  | .str s => encodeVarint s.length ++ s
  | .seq vs => encodeVarint vs.length ++ serializeList vs
  | .opt none => [0]
  | .opt (some v) => 1 :: serialize v
  | .prod fs => serializeList fs
  | .sum tag p => tag % 256 :: serialize p

/-- Modelled from the spec: concatenation of field/element encodings in
declared order, no padding. -/
def serializeList : List Value → List Nat
  | [] => []
  | v :: vs => serialize v ++ serializeList vs

end

mutual

/-- Modelled from the spec: the generated NumBytes logic (derive_num_bytes.rs
is not among the available sources).  Fixed-width primitives contribute a
constant, variable-length constructs contribute prefix length plus the sum of
element sizes, sums contribute one discriminant byte plus the payload size. -/
def numBytes : Value → Nat
  | .u8 _ => 1
  | .u16 _ => 2
  | .u32 _ => 4
  | .boolean _ => 1
  | .varnat n => varintLen n
  | .str s => varintLen s.length + s.length
  | .seq vs => varintLen vs.length + numBytesList vs
  | .opt none => 1
  | .opt (some v) => 1 + numBytes v
  | .prod fs => numBytesList fs
  | .sum _ p => 1 + numBytes p

/-- Modelled from the spec: total size is the sum across fields in order. -/
def numBytesList : List Value → Nat
  | [] => 0
  | v :: vs => numBytes v + numBytesList vs

end

mutual

/-- Modelled from the spec: the generated Read logic (derive_read.rs is not
among the available sources).  Cursor-based fallible decoding, represented here
by consuming the front of the remaining byte list; the cursor is the count of
consumed bytes.  Fails with an underrun when fewer bytes remain than the next
field requires, with an invalid discriminant when a sum discriminant byte
matches no variant, and with a malformed varint when a length prefix does not
terminate within the maximum width. -/
def readValue : Ty → List Nat → Except DecodeErr (Value × List Nat)
  | .u8, buf =>
    match readBytes 1 buf with
    | .ok (bs, r) => .ok (.u8 (leNat bs), r)
    | .error e => .error e
  | .u16, buf =>
    match readBytes 2 buf with
    | .ok (bs, r) => .ok (.u16 (leNat bs), r)
    | .error e => .error e
  | .u32, buf =>
    match readBytes 4 buf with
    | .ok (bs, r) => .ok (.u32 (leNat bs), r)
    | .error e => .error e
  | .boolean, buf =>
    match readBytes 1 buf with
    | .ok (bs, r) => .ok (.boolean (leNat bs != 0), r)
    | .error e => .error e
  | .varnat, buf =>
    match readVarint buf with
    | .ok (n, r) => .ok (.varnat n, r)
    | .error e => .error e
  | .str, buf =>
    match readVarint buf with
    | .ok (n, r) =>
      match readBytes n r with
      | .ok (s, r2) => .ok (.str s, r2)
      | .error e => .error e
    | .error e => .error e
  | .seq t, buf =>
    match readVarint buf with
    | .ok (n, r) =>
      match readElems t n r with
      | .ok (vs, r2) => .ok (.seq vs, r2)
      | .error e => .error e
    | .error e => .error e
  | .opt _, [] => .error .underrun
  | .opt t, b :: r =>
    if b = 0 then .ok (.opt none, r)
    else
      match readValue t r with
      | .ok (v, r2) => .ok (.opt (some v), r2)
      | .error e => .error e
  | .prod ts, buf =>
    match readFields ts buf with
    | .ok (vs, r) => .ok (.prod vs, r)
    | .error e => .error e
  | .sum _, [] => .error .underrun
  | .sum ts, b :: r =>
    match readVariant ts b r with
    | .ok (v, r2) => .ok (.sum b v, r2)
    | .error e => .error e
termination_by t _ => (sizeOf t, 0)

/-- Modelled from the spec: decode each field of a product in declared order,
threading the cursor. -/
def readFields : List Ty → List Nat → Except DecodeErr (List Value × List Nat)
  | [], buf => .ok ([], buf)
  | t :: ts, buf =>
    match readValue t buf with
    | .ok (v, r) =>
      match readFields ts r with
      | .ok (vs, r2) => .ok (v :: vs, r2)
      | .error e => .error e
    | .error e => .error e
termination_by ts _ => (sizeOf ts, 0)

/-- Modelled from the spec: decode the announced number of sequence elements. -/
def readElems : Ty → Nat → List Nat → Except DecodeErr (List Value × List Nat)
  | _, 0, buf => .ok ([], buf)
  | t, n + 1, buf =>
    match readValue t buf with
    | .ok (v, r) =>
      match readElems t n r with
      | .ok (vs, r2) => .ok (v :: vs, r2)
      | .error e => .error e
    | .error e => .error e
termination_by t n _ => (sizeOf t, n + 1)

/-- Modelled from the spec: select the variant whose zero-based position equals
the discriminant byte; a discriminant beyond the variant list is invalid. -/
def readVariant : List Ty → Nat → List Nat → Except DecodeErr (Value × List Nat)
  | [], _, _ => .error .badDiscriminant
  | t :: _, 0, buf => readValue t buf
  | _ :: ts, k + 1, buf => readVariant ts k buf
termination_by ts _ _ => (sizeOf ts, 0)

end

/-- Modelled from the spec: `v` is a well-formed runtime value of the generated
type `t`.  Numeric payloads fit their declared width, string bytes are bytes,
string and sequence lengths fit the 64-bit varint width used for length
prefixes, sum discriminants are one byte and name an existing variant, and
products/sequences are typed field by field in declared order. -/
inductive HasTy : Value → Ty → Prop
  | u8 {n : Nat} : n < 256 → HasTy (.u8 n) .u8
  | u16 {n : Nat} : n < 65536 → HasTy (.u16 n) .u16
  | u32 {n : Nat} : n < 4294967296 → HasTy (.u32 n) .u32
  | boolean {b : Bool} : HasTy (.boolean b) .boolean
  | varnat {n : Nat} : n < 18446744073709551616 → HasTy (.varnat n) .varnat
  | str {s : List Nat} : s.length < 18446744073709551616 →
      (∀ b ∈ s, b < 256) → HasTy (.str s) .str
  | optNone {t : Ty} : HasTy (.opt none) (.opt t)
  | optSome {v : Value} {t : Ty} : HasTy v t → HasTy (.opt (some v)) (.opt t)
  | seqNil {t : Ty} : HasTy (.seq []) (.seq t)
  | seqCons {v : Value} {vs : List Value} {t : Ty} : HasTy v t →
      HasTy (.seq vs) (.seq t) → vs.length + 1 < 18446744073709551616 →
      HasTy (.seq (v :: vs)) (.seq t)
  | prodNil : HasTy (.prod []) (.prod [])
  | prodCons {v : Value} {t : Ty} {vs : List Value} {ts : List Ty} :
      HasTy v t → HasTy (.prod vs) (.prod ts) →
      HasTy (.prod (v :: vs)) (.prod (t :: ts))
  | sum {tag : Nat} {p : Value} {ts : List Ty} {t : Ty} :
      ts[tag]? = some t → ts.length ≤ 256 → HasTy p t →
      HasTy (.sum tag p) (.sum ts)

/-- Modelled from the spec: the generated Digest logic (derive_digest.rs is not
among the available sources) computes `digest(value) = hash(serialize(value))`
for a fixed, globally agreed hash algorithm.  The algorithm itself is not
observable from the available interface surface, so the digest is modelled for
an arbitrary fixed hash function taken as a parameter. -/
def digestWith (hash : List Nat → List Nat) (v : Value) : List Nat :=
  hash (serialize v)

/- ===== Configuration resolver (iostio-core-derive/src/lib.rs, present in
   the sources): the root-path attribute model. ===== -/

/-- The path of a parsed attribute meta item: leading double colon flag and
segment list, mirroring syn's `Path` as used by `root_path`. -/
structure MetaPath where
  segments : List String
  leadingColon : Bool
deriving DecidableEq, Repr

/-- A literal attribute value: a string literal or any other literal kind
(mirrors the `Lit::Str` versus other-`Lit` split in `root_path`). -/
inductive RLit
  | str (s : String)
  | other
deriving DecidableEq, Repr

/-- A parsed attribute meta item: bare path, list form, or name-value form
(mirrors syn's `Meta` as matched by `root_path`). -/
inductive RMeta
  | pathM (p : MetaPath)
  | listM (p : MetaPath)
  | nameValue (p : MetaPath) (lit : RLit)
deriving DecidableEq, Repr

/-- The path of a meta item (`meta.path()` in `root_path`). -/
def RMeta.metaPath : RMeta → MetaPath
  | .pathM p => p
  | .listM p => p
  | .nameValue p _ => p

/-- One attribute of the derive input, by its `parse_meta` outcome: `none`
models `Err(_)`, which `root_path` skips. -/
abbrev RAttr := Option RMeta

/-- `Path::get_ident`: some identifier exactly when the path has no leading
double colon and a single segment. -/
def getIdent (p : MetaPath) : Option String :=
  match p.leadingColon, p.segments with
  | false, [s] => some s
  | _, _ => none

/-- One step of the fold inside `root_path` (src/iostio-core-derive/src/lib.rs
lines 99-115).  A parse error keeps the accumulator; a meta whose path is not a
single identifier hits `expect("please add trait root path")`; a name-value
`eosio_core_root_path` with a string literal replaces the accumulator; one with
any other literal hits the `panic`; list and bare-path shapes keep the
accumulator; other names keep the accumulator. -/
def rootStep (acc : Option String) (a : RAttr) : Except String (Option String) :=
  match a with
  | none => .ok acc
  | some m =>
    match getIdent m.metaPath with
    | none => .error ("please add trait root path")
    | some name =>
      if name = "eosio_core_root_path" then
        match m with
        | .nameValue _ (.str s) => .ok (some s)
        | .nameValue _ .other => .error ("eosio_core_path must be a lit str")
        | _ => .ok acc
      else .ok acc

/-- The whole fold of `root_path` over the input's attributes, starting from
`None`. -/
def rootFold (attrs : List RAttr) : Except String (Option String) :=
  attrs.foldlM rootStep none

/-- The compiled-in default root path string (lines 86-92): `"::eosio"` when
the `internal-use-only-root-path-is-eosio` feature is enabled, else
`"::eosio_core"`. -/
def DEFAULT_ROOT_PATH (featureEosio : Bool) : String :=
  if featureEosio then ("::eosio") else ("::eosio_core")

/-- Is this character list a plain identifier (nonempty, starting with a letter
or underscore, containing only letters, digits and underscores)? -/
def isIdentSeg : List Char → Bool
  | [] => false
  | c :: cs => (c.isAlpha || c = '_') && (c :: cs).all (fun d => d.isAlphanum || d = '_')

/-- Split a character list into segments at each `::` separator. -/
def splitCols : List Char → List (List Char)
  | [] => [[]]
  | ':' :: ':' :: rest => [] :: splitCols rest
  | c :: rest =>
    match splitCols rest with
    | [] => [[c]]
    | s :: ss => (c :: s) :: ss

/-- `Path::parse_mod_style` on a literal string: an optional leading `::`
followed by `::`-separated plain identifier segments. -/
def parseModPath (s : String) : Option MetaPath :=
  match s.data with
  | ':' :: ':' :: rest =>
    if (splitCols rest).all isIdentSeg then
      some ⟨(splitCols rest).map (fun l => String.mk l), true⟩
    else none
  | cs =>
    if (splitCols cs).all isIdentSeg then
      some ⟨(splitCols cs).map (fun l => String.mk l), false⟩
    else none

/-- `root_path` (lines 95-120): fold the attributes for the last well-formed
override, fall back to the compiled-in default, then parse the chosen string as
a mod-style path, hitting `expect("bad path for eosio_core_root_path")` when it
does not parse.  Panics are modelled as `Except.error` of the panic message. -/
def root_path (featureEosio : Bool) (attrs : List RAttr) : Except String MetaPath :=
  match rootFold attrs with
  | .error e => .error e
  | .ok acc =>
    match parseModPath (acc.getD (DEFAULT_ROOT_PATH featureEosio)) with
    | some p => .ok p
    | none => .error ("bad path for eosio_core_root_path")

/-- The override a single attribute contributes, if well formed: a name-value
`eosio_core_root_path` meta with a string literal. -/
def wfOverride : RAttr → Option String
  | some (.nameValue p (.str s)) =>
    if getIdent p = some ("eosio_core_root_path") then some s else none
  | _ => none

/-- Pure accumulator update: a well-formed override replaces the accumulator,
anything else keeps it. -/
def updOv (acc : Option String) (a : RAttr) : Option String :=
  match wfOverride a with
  | some s => some s
  | none => acc

/-- The last well-formed override among the attributes, if any. -/
def lastOverride (attrs : List RAttr) : Option String :=
  attrs.foldl updOv none

/-- The parsed form of the compiled-in default root path. -/
def defaultPath (featureEosio : Bool) : MetaPath :=
  if featureEosio then ⟨["eosio"], true⟩ else ⟨["eosio_core"], true⟩

/- ===== Table metadata generation (Table capability). ===== -/

/-- Modelled from the spec: the key-role markers attached to one field of a
type deriving the Table capability. -/
structure TableField where
  primary : Bool
  secondary : Bool
deriving DecidableEq, Repr

/-- Modelled from the spec: the configuration tokens of a Table derive input:
optional table name, singleton flag, ordered field marker list. -/
structure TableInput where
  tableName : Option String
  singleton : Bool
  fields : List TableField
deriving DecidableEq, Repr

/-- Modelled from the spec: the emitted static Table metadata: table name, at
most one primary key field, ordered secondary key fields, singleton flag. -/
structure TableMetadata where
  name : String
  primaryIx : Option Nat
  secondaryIxs : List Nat
  singleton : Bool
deriving DecidableEq, Repr

/-- Indices of the fields marked primary, in declared order. -/
def primaryIxs (fs : List TableField) : List Nat :=
  (fs.enum.filter (fun p => p.2.primary)).map (fun p => p.1)

/-- Indices of the fields marked secondary, in declared order. -/
def secondaryKeyIxs (fs : List TableField) : List Nat :=
  (fs.enum.filter (fun p => p.2.secondary)).map (fun p => p.1)

/-- Does any field carry a primary or secondary key marker? -/
def hasKeyMarker (fs : List TableField) : Bool :=
  fs.any (fun f => f.primary || f.secondary)

/-- Modelled from the spec: the generation-time validation of derive_table.rs
(not among the available sources).  The table name is required, at most one
field may be marked primary, and the singleton marker excludes all key
markers; each violation fails generation with a diagnostic. -/
def deriveTableMeta (inp : TableInput) : Except String TableMetadata :=
  match inp.tableName with
  | none => .error ("table name is required")
  | some nm =>
    if 1 < (primaryIxs inp.fields).length then
      .error ("duplicate primary key marker")
    else if inp.singleton && hasKeyMarker inp.fields then
      .error ("singleton excludes key markers")
    else
      .ok ⟨nm, (primaryIxs inp.fields).head?, secondaryKeyIxs inp.fields, inp.singleton⟩

/- ===== Transport client response classification (chain/src/lib.rs,
   present in the sources). ===== -/

/-- One HTTP response as the client observes it: the status code, the outcome
of decoding the body as the expected success type, and the outcome of decoding
the body as an `ErrorMessage`.  A `none` decode outcome models a serde/reqwest
body-decoding failure. -/
structure HttpResponse (T E : Type) where
  status : Nat
  bodyAs : Option T
  bodyErr : Option E

/-- The client error type, from the use sites in chain/src/lib.rs (error.rs is
not among the available sources): a transport/decoding failure wrapped as
`Error::Reqwest`, or a decoded `Error::ErrorMessage`. -/
inductive ClientError (E : Type)
  | reqwest
  | errorMessage (m : E)

/-- The outcome of `send()`: the request itself failed, or a response came
back. -/
inductive SendOutcome (T E : Type)
  | failed
  | responded (r : HttpResponse T E)

/-- `Client::get` for IOST (chain/src/lib.rs lines 88-98): a send failure is a
Reqwest error; on status 200 the body is decoded as the success type (decode
failure is a Reqwest error); on any other status the body is decoded as an
`ErrorMessage` and returned as an ErrorMessage error (decode failure is a
Reqwest error). -/
def clientGet {T E : Type} (out : SendOutcome T E) : Except (ClientError E) T :=
  match out with
  | .failed => .error .reqwest
  | .responded r =>
    if r.status = 200 then
      match r.bodyAs with
      | some t => .ok t
      | none => .error .reqwest
    else
      match r.bodyErr with
      | some m => .error (.errorMessage m)
      | none => .error .reqwest

/-- `Client::post` for IOST (chain/src/lib.rs lines 100-118): identical
status-code classification to `Client::get`. -/
def clientPost {T E : Type} (out : SendOutcome T E) : Except (ClientError E) T :=
  match out with
  | .failed => .error .reqwest
  | .responded r =>
    if r.status = 200 then
      match r.bodyAs with
      | some t => .ok t
      | none => .error .reqwest
    else
      match r.bodyErr with
      | some m => .error (.errorMessage m)
      | none => .error .reqwest

/- ===== Theorems ===== -/

theorem varintLen_pos (n : Nat) : 1 ≤ varintLen n := by
  rw [varintLen]; split <;> omega

theorem varintLen_le_pow : ∀ (k n : Nat), 0 < k → n < 128 ^ k → varintLen n ≤ k := by
  intro k
  induction k with
  | zero => intro n h; omega
  | succ k ih =>
    intro n _ hn
    rw [varintLen]
    by_cases h1 : n < 128
    · rw [if_pos h1]; omega
    · rw [if_neg h1]
      have hk : 0 < k := by
        by_contra hk0
        have hk1 : k = 0 := by omega
        subst hk1
        simp [pow_succ] at hn
        omega
      have hdiv : n / 128 < 128 ^ k := by
        rw [Nat.div_lt_iff_lt_mul (by omega)]
        calc n < 128 ^ (k + 1) := hn
          _ = 128 ^ k * 128 := by rw [pow_succ]
      have := ih (n / 128) hk hdiv
      omega

theorem varintLen_le_ten {n : Nat} (h : n < 18446744073709551616) : varintLen n ≤ 10 :=
  varintLen_le_pow 10 n (by norm_num) (lt_of_lt_of_le h (by norm_num))

theorem readVarintW_enc : ∀ (w n : Nat) (rest : List Nat), varintLen n ≤ w →
    readVarintW w (encodeVarint n ++ rest) = .ok (n, rest) := by
  intro w
  induction w with
  | zero =>
    intro n rest h
    have := varintLen_pos n
    omega
  | succ w ih =>
    intro n rest h
    rw [encodeVarint]
    by_cases hn : n < 128
    · rw [if_pos hn]
      simp [readVarintW, hn]
    · rw [if_neg hn]
      have hlen : varintLen (n / 128) ≤ w := by
        rw [varintLen, if_neg hn] at h; omega
      have harith : n % 128 + 128 - 128 + 128 * (n / 128) = n := by omega
      simp only [List.cons_append, List.append_eq, readVarintW,
        if_neg (show ¬n % 128 + 128 < 128 by omega), ih (n / 128) rest hlen, harith]

theorem readVarint_enc {n : Nat} (hn : n < 18446744073709551616) (rest : List Nat) :
    readVarint (encodeVarint n ++ rest) = .ok (n, rest) :=
  readVarintW_enc 10 n rest (varintLen_le_ten hn)

theorem strictPreLen {p s : List Nat} (h : p <+: s) (hne : p ≠ s) : p.length < s.length :=
  lt_of_le_of_ne h.length_le (fun he => hne (h.eq_of_length he))

theorem readVarintW_trunc (n : Nat) : ∀ (w : Nat) (p : List Nat), varintLen n ≤ w →
    p <+: encodeVarint n → p ≠ encodeVarint n → readVarintW w p = .error .underrun := by
  induction n using Nat.strong_induction_on with
  | _ n ih =>
    intro w p hw hpre hne
    have hw1 : 1 ≤ w := le_trans (varintLen_pos n) hw
    rw [encodeVarint] at hpre hne
    by_cases hn : n < 128
    · rw [if_pos hn] at hpre hne
      have hp : p = [] := by
        have hl := strictPreLen hpre hne
        simp only [List.length_cons, List.length_nil] at hl
        exact List.length_eq_zero.mp (by omega)
      subst hp
      cases w with
      | zero => omega
      | succ w => simp [readVarintW]
    · rw [if_neg hn] at hpre hne
      cases p with
      | nil =>
        cases w with
        | zero => omega
        | succ w => simp [readVarintW]
      | cons a q =>
        obtain ⟨rfl, hq⟩ := List.cons_prefix_cons.mp hpre
        have hqne : q ≠ encodeVarint (n / 128) := fun h => hne (by rw [h])
        cases w with
        | zero => omega
        | succ w =>
          simp only [readVarintW]
          rw [if_neg (by omega)]
          have hlen : varintLen (n / 128) ≤ w := by
            rw [varintLen, if_neg hn] at hw; omega
          rw [ih (n / 128) (by omega) w q hlen hq hqne]

theorem readVarint_trunc {n : Nat} (hn : n < 18446744073709551616) {p : List Nat}
    (hpre : p <+: encodeVarint n) (hne : p ≠ encodeVarint n) :
    readVarint p = .error .underrun :=
  readVarintW_trunc n 10 p (varintLen_le_ten hn) hpre hne

theorem readBytes_exact : ∀ (s rest : List Nat), readBytes s.length (s ++ rest) = .ok (s, rest) := by
  intro s
  induction s with
  | nil => intro rest; simp [readBytes]
  | cons b s ih => intro rest; simp [readBytes, ih rest]

theorem readBytes_short : ∀ (n : Nat) (p : List Nat), p.length < n →
    readBytes n p = .error .underrun := by
  intro n
  induction n with
  | zero => intro p h; omega
  | succ n ih =>
    intro p h
    cases p with
    | nil => simp [readBytes]
    | cons b r =>
      simp only [List.length_cons] at h
      simp [readBytes, ih r (by omega)]

theorem preSplit : ∀ (s1 p : List Nat) {s2 : List Nat}, p <+: s1 ++ s2 →
    p <+: s1 ∨ ∃ q, p = s1 ++ q ∧ q <+: s2 := by
  intro s1
  induction s1 with
  | nil =>
    intro p s2 h
    right
    exact ⟨p, by simp, h⟩
  | cons a s1 ih =>
    intro p s2 h
    cases p with
    | nil => left; exact List.nil_prefix
    | cons x q =>
      rw [List.cons_append] at h
      obtain ⟨rfl, hq⟩ := List.cons_prefix_cons.mp h
      rcases ih q hq with h1 | ⟨q2, rfl, h2⟩
      · left; exact List.cons_prefix_cons.mpr ⟨rfl, h1⟩
      · right; exact ⟨q2, by simp, h2⟩

theorem preAppendLeft {q s : List Nat} (l : List Nat) (h : q <+: s) : l ++ q <+: l ++ s := by
  obtain ⟨t, rfl⟩ := h
  exact ⟨t, by rw [List.append_assoc]⟩

theorem prodExtractOk {ts : List Ty} {buf : List Nat} {vs : List Value} {r : List Nat}
    (h : readValue (.prod ts) buf = .ok (.prod vs, r)) : readFields ts buf = .ok (vs, r) := by
  rw [readValue] at h
  cases hf : readFields ts buf with
  | ok pr =>
    obtain ⟨vs2, r2⟩ := pr
    rw [hf] at h
    simp only [Except.ok.injEq, Prod.mk.injEq, Value.prod.injEq] at h
    obtain ⟨rfl, rfl⟩ := h
    rfl
  | error e => rw [hf] at h; simp at h

theorem prodExtractErr {ts : List Ty} {buf : List Nat} {e : DecodeErr}
    (h : readValue (.prod ts) buf = .error e) : readFields ts buf = .error e := by
  rw [readValue] at h
  cases hf : readFields ts buf with
  | ok pr => obtain ⟨vs2, r2⟩ := pr; rw [hf] at h; simp at h
  | error e2 => rw [hf] at h; simp only [Except.error.injEq] at h; rw [h]

theorem seqExtractOk {t : Ty} {buf : List Nat} {n : Nat} {rr : List Nat} {vs : List Value}
    {r : List Nat} (hv : readVarint buf = .ok (n, rr))
    (h : readValue (.seq t) buf = .ok (.seq vs, r)) : readElems t n rr = .ok (vs, r) := by
  cases hf : readElems t n rr with
  | ok pr =>
    obtain ⟨vs2, r2⟩ := pr
    rw [show readValue (.seq t) buf = .ok (.seq vs2, r2) from by
      simp only [readValue, hv, hf]] at h
    simp only [Except.ok.injEq, Prod.mk.injEq, Value.seq.injEq] at h
    obtain ⟨rfl, rfl⟩ := h
    rfl
  | error e =>
    rw [show readValue (.seq t) buf = .error e from by simp only [readValue, hv, hf]] at h
    simp at h

theorem seqExtractErr {t : Ty} {buf : List Nat} {n : Nat} {rr : List Nat} {e : DecodeErr}
    (hv : readVarint buf = .ok (n, rr))
    (h : readValue (.seq t) buf = .error e) : readElems t n rr = .error e := by
  cases hf : readElems t n rr with
  | ok pr =>
    obtain ⟨vs2, r2⟩ := pr
    rw [show readValue (.seq t) buf = .ok (.seq vs2, r2) from by
      simp only [readValue, hv, hf]] at h
    simp at h
  | error e2 =>
    rw [show readValue (.seq t) buf = .error e2 from by simp only [readValue, hv, hf]] at h
    simp only [Except.error.injEq] at h
    rw [h]

theorem readVariant_get : ∀ (ts : List Ty) (k : Nat) {t : Ty}, ts[k]? = some t →
    ∀ buf, readVariant ts k buf = readValue t buf := by
  intro ts
  induction ts with
  | nil => intro k t h; simp at h
  | cons t0 ts ih =>
    intro k t h buf
    cases k with
    | zero =>
      simp only [List.getElem?_cons_zero, Option.some.injEq] at h
      subst h
      rw [readVariant]
    | succ k =>
      simp only [List.getElem?_cons_succ] at h
      rw [readVariant]
      exact ih k h buf

theorem read_ok {v : Value} {t : Ty} (h : HasTy v t) :
    ∀ rest, readValue t (serialize v ++ rest) = .ok (v, rest) := by
  induction h with
  | @u8 n hn =>
    intro rest
    simp [serialize, readValue, readBytes, leNat, Nat.mod_eq_of_lt hn]
  | @u16 n hn =>
    intro rest
    simp [serialize, readValue, readBytes, leNat]
    omega
  | @u32 n hn =>
    intro rest
    simp [serialize, readValue, readBytes, leNat]
    omega
  | @boolean b =>
    intro rest
    cases b <;> simp [serialize, readValue, readBytes, leNat]
  | @varnat n hn =>
    intro rest
    simp only [serialize, readValue]
    rw [readVarint_enc hn]
  | @str s hslen hsb =>
    intro rest
    simp only [serialize, List.append_assoc, readValue, readVarint_enc hslen, readBytes_exact]
  | @optNone t =>
    intro rest
    simp [serialize, readValue]
  | @optSome v t hv ih =>
    intro rest
    simp only [serialize, List.cons_append, readValue]
    rw [if_neg (by omega), ih rest]
  | @seqNil t =>
    intro rest
    simp only [serialize, serializeList, List.length_nil, List.append_nil, readValue]
    rw [readVarint_enc (by norm_num)]
    simp [readElems]
  | @seqCons v vs t hv hvs hlen ihv ihvs =>
    intro rest
    have hE : readElems t vs.length (serializeList vs ++ rest) = .ok (vs, rest) := by
      have h2 := ihvs rest
      rw [show serialize (.seq vs) = encodeVarint vs.length ++ serializeList vs from by
        simp [serialize]] at h2
      rw [List.append_assoc] at h2
      exact seqExtractOk (readVarint_enc (by omega) _) h2
    simp only [serialize, serializeList, List.length_cons, List.append_assoc, readValue,
      readVarint_enc hlen, readElems, ihv, hE]
  | prodNil =>
    intro rest
    simp [serialize, serializeList, readValue, readFields]
  | @prodCons v t vs ts hv hvs ihv ihvs =>
    intro rest
    have hF : readFields ts (serializeList vs ++ rest) = .ok (vs, rest) := by
      have h2 := ihvs rest
      rw [show serialize (.prod vs) = serializeList vs from by simp [serialize]] at h2
      exact prodExtractOk h2
    simp only [serialize, serializeList, List.append_assoc, readValue, readFields, ihv, hF]
  | @sum tag p ts t hget hle hp ihp =>
    intro rest
    have htag : tag < ts.length := by
      have := List.getElem?_eq_some.mp hget
      exact this.1
    have htag256 : tag % 256 = tag := Nat.mod_eq_of_lt (lt_of_lt_of_le htag hle)
    simp only [serialize, List.cons_append, htag256, readValue]
    rw [readVariant_get ts tag hget, ihp rest]

theorem readVarintW_nil {w : Nat} (hw : 1 ≤ w) : readVarintW w [] = .error .underrun := by
  cases w with
  | zero => omega
  | succ w => simp [readVarintW]

theorem readVarint_nil : readVarint [] = .error .underrun :=
  readVarintW_nil (by omega)

theorem strictSplit {s1 s2 p : List Nat} (h : p <+: s1 ++ s2) (hne : p ≠ s1 ++ s2) :
    (p <+: s1 ∧ p ≠ s1) ∨ ∃ q, p = s1 ++ q ∧ q <+: s2 ∧ q ≠ s2 := by
  rcases preSplit s1 p h with h1 | ⟨q, rfl, hq⟩
  · by_cases heq : p = s1
    · subst heq
      right
      refine ⟨[], by simp, List.nil_prefix, ?_⟩
      intro h0
      apply hne
      rw [← h0, List.append_nil]
    · left; exact ⟨h1, heq⟩
  · right
    refine ⟨q, rfl, hq, ?_⟩
    intro h0
    subst h0
    exact hne rfl

theorem read_trunc {v : Value} {t : Ty} (h : HasTy v t) :
    ∀ p, p <+: serialize v → p ≠ serialize v → readValue t p = .error .underrun := by
  induction h with
  | @u8 n hn =>
    intro p hpre hne
    have hl := strictPreLen hpre hne
    simp only [serialize, List.length_cons, List.length_nil] at hl
    simp only [readValue, readBytes_short 1 p (by omega)]
  | @u16 n hn =>
    intro p hpre hne
    have hl := strictPreLen hpre hne
    simp only [serialize, List.length_cons, List.length_nil] at hl
    simp only [readValue, readBytes_short 2 p (by omega)]
  | @u32 n hn =>
    intro p hpre hne
    have hl := strictPreLen hpre hne
    simp only [serialize, List.length_cons, List.length_nil] at hl
    simp only [readValue, readBytes_short 4 p (by omega)]
  | @boolean b =>
    intro p hpre hne
    have hl := strictPreLen hpre hne
    simp only [serialize, List.length_cons, List.length_nil] at hl
    simp only [readValue, readBytes_short 1 p (by omega)]
  | @varnat n hn =>
    intro p hpre hne
    simp only [serialize] at hpre hne
    simp only [readValue, readVarint_trunc hn hpre hne]
  | @str s hslen hsb =>
    intro p hpre hne
    simp only [serialize] at hpre hne
    rcases strictSplit hpre hne with ⟨h1, hne1⟩ | ⟨q, rfl, hq, hqne⟩
    · simp only [readValue, readVarint_trunc hslen h1 hne1]
    · have hql : q.length < s.length := strictPreLen hq hqne
      simp only [readValue, readVarint_enc hslen, readBytes_short s.length q hql]
  | @optNone t =>
    intro p hpre hne
    have hl := strictPreLen hpre hne
    simp only [serialize, List.length_cons, List.length_nil] at hl
    have hp : p = [] := List.length_eq_zero.mp (by omega)
    subst hp
    simp [readValue]
  | @optSome v t hv ih =>
    intro p hpre hne
    simp only [serialize] at hpre hne
    cases p with
    | nil => simp [readValue]
    | cons a q =>
      obtain ⟨rfl, hq⟩ := List.cons_prefix_cons.mp hpre
      have hqne : q ≠ serialize v := fun h0 => hne (by rw [h0])
      simp only [readValue, if_neg (by omega : ¬(1 : Nat) = 0), ih q hq hqne]
  | @seqNil t =>
    intro p hpre hne
    have hser : serialize (Value.seq []) = [0] := by
      simp [serialize, serializeList, encodeVarint]
    rw [hser] at hpre hne
    have hl := strictPreLen hpre hne
    simp only [List.length_cons, List.length_nil] at hl
    have hp : p = [] := List.length_eq_zero.mp (by omega)
    subst hp
    simp only [readValue, readVarint_nil]
  | @seqCons v vs t hv hvs hlen ihv ihvs =>
    intro p hpre hne
    have hser : serialize (Value.seq (v :: vs)) =
        encodeVarint (vs.length + 1) ++ (serialize v ++ serializeList vs) := by
      simp [serialize, serializeList]
    rw [hser] at hpre hne
    rcases strictSplit hpre hne with ⟨h1, hne1⟩ | ⟨q, rfl, hq, hqne⟩
    · simp only [readValue, readVarint_trunc hlen h1 hne1]
    · have hEl : readElems t (vs.length + 1) q = .error .underrun := by
        rcases strictSplit hq hqne with ⟨h2, hne2⟩ | ⟨q2, rfl, hq2, hq2ne⟩
        · simp only [readElems, ihv q h2 hne2]
        · have hE2 : readElems t vs.length q2 = .error .underrun := by
            have hv2 : serialize (Value.seq vs) = encodeVarint vs.length ++ serializeList vs := by
              simp [serialize]
            have hp' : (encodeVarint vs.length ++ q2) <+: serialize (Value.seq vs) := by
              rw [hv2]; exact preAppendLeft _ hq2
            have hp'ne : encodeVarint vs.length ++ q2 ≠ serialize (Value.seq vs) := by
              rw [hv2]
              intro h0
              exact hq2ne (List.append_cancel_left h0)
            have hu := ihvs _ hp' hp'ne
            exact seqExtractErr (readVarint_enc (by omega) q2) hu
          simp only [readElems, read_ok hv, hE2]
      simp only [readValue, readVarint_enc hlen, hEl]
  | prodNil =>
    intro p hpre hne
    simp only [serialize, serializeList] at hpre hne
    exact absurd (List.prefix_nil.mp hpre) hne
  | @prodCons v t vs ts hv hvs ihv ihvs =>
    intro p hpre hne
    have hser : serialize (Value.prod (v :: vs)) = serialize v ++ serializeList vs := by
      simp [serialize, serializeList]
    rw [hser] at hpre hne
    have hps : serialize (Value.prod vs) = serializeList vs := by simp [serialize]
    rcases strictSplit hpre hne with ⟨h1, hne1⟩ | ⟨q, rfl, hq, hqne⟩
    · simp only [readValue, readFields, ihv p h1 hne1]
    · have hF : readFields ts q = .error .underrun := by
        have hu := ihvs q (by rw [hps]; exact hq) (by rw [hps]; exact hqne)
        exact prodExtractErr hu
      simp only [readValue, readFields, read_ok hv, hF]
  | @sum tag pl ts t hget hle hpl ihp =>
    intro p hpre hne
    have htag : tag < ts.length := (List.getElem?_eq_some.mp hget).1
    have htag256 : tag % 256 = tag := Nat.mod_eq_of_lt (lt_of_lt_of_le htag hle)
    simp only [serialize, htag256] at hpre hne
    cases p with
    | nil => simp [readValue]
    | cons a q =>
      obtain ⟨rfl, hq⟩ := List.cons_prefix_cons.mp hpre
      have hqne : q ≠ serialize pl := fun h0 => hne (by rw [h0])
      simp only [readValue, readVariant_get ts a hget, ihp q hq hqne]

theorem readVarintW_sfx : ∀ (w : Nat) (buf : List Nat) (n : Nat) (r : List Nat),
    readVarintW w buf = .ok (n, r) → r <:+ buf := by
  intro w
  induction w with
  | zero => intro buf n r h; simp [readVarintW] at h
  | succ w ih =>
    intro buf n r h
    cases buf with
    | nil => simp [readVarintW] at h
    | cons b rest =>
      rw [readVarintW] at h
      split at h
      · simp only [Except.ok.injEq, Prod.mk.injEq] at h
        obtain ⟨-, rfl⟩ := h
        exact List.suffix_cons b rest
      · split at h
        · rename_i m r2 heq
          simp only [Except.ok.injEq, Prod.mk.injEq] at h
          obtain ⟨-, rfl⟩ := h
          exact (ih rest m r2 heq).trans (List.suffix_cons b rest)
        · simp at h

theorem readVarint_sfx {buf : List Nat} {n : Nat} {r : List Nat}
    (h : readVarint buf = .ok (n, r)) : r <:+ buf :=
  readVarintW_sfx 10 buf n r h

theorem readBytes_sfx : ∀ (k : Nat) (buf : List Nat) (s r : List Nat),
    readBytes k buf = .ok (s, r) → r <:+ buf := by
  intro k
  induction k with
  | zero =>
    intro buf s r h
    rw [readBytes] at h
    simp only [Except.ok.injEq, Prod.mk.injEq] at h
    obtain ⟨-, rfl⟩ := h
    exact List.suffix_refl buf
  | succ k ih =>
    intro buf s r h
    cases buf with
    | nil => simp [readBytes] at h
    | cons b rest =>
      rw [readBytes] at h
      split at h
      · rename_i s2 r2 heq
        simp only [Except.ok.injEq, Prod.mk.injEq] at h
        obtain ⟨-, rfl⟩ := h
        exact (ih rest s2 r2 heq).trans (List.suffix_cons b rest)
      · simp at h

mutual

theorem readValue_sfx : ∀ (t : Ty) (buf : List Nat) (v : Value) (r : List Nat),
    readValue t buf = .ok (v, r) → r <:+ buf
  | .u8, buf, v, r => by
    intro h
    rw [readValue] at h
    split at h
    · rename_i bs r2 heq
      simp only [Except.ok.injEq, Prod.mk.injEq] at h
      obtain ⟨-, rfl⟩ := h
      exact readBytes_sfx 1 buf bs r2 heq
    · simp at h
  | .u16, buf, v, r => by
    intro h
    rw [readValue] at h
    split at h
    · rename_i bs r2 heq
      simp only [Except.ok.injEq, Prod.mk.injEq] at h
      obtain ⟨-, rfl⟩ := h
      exact readBytes_sfx 2 buf bs r2 heq
    · simp at h
  | .u32, buf, v, r => by
    intro h
    rw [readValue] at h
    split at h
    · rename_i bs r2 heq
      simp only [Except.ok.injEq, Prod.mk.injEq] at h
      obtain ⟨-, rfl⟩ := h
      exact readBytes_sfx 4 buf bs r2 heq
    · simp at h
  | .boolean, buf, v, r => by
    intro h
    rw [readValue] at h
    split at h
    · rename_i bs r2 heq
      simp only [Except.ok.injEq, Prod.mk.injEq] at h
      obtain ⟨-, rfl⟩ := h
      exact readBytes_sfx 1 buf bs r2 heq
    · simp at h
  | .varnat, buf, v, r => by
    intro h
    rw [readValue] at h
    split at h
    · rename_i n r2 heq
      simp only [Except.ok.injEq, Prod.mk.injEq] at h
      obtain ⟨-, rfl⟩ := h
      exact readVarint_sfx heq
    · simp at h
  | .str, buf, v, r => by
    intro h
    rw [readValue] at h
    split at h
    · rename_i n r1 heq1
      split at h
      · rename_i s2 r2 heq2
        simp only [Except.ok.injEq, Prod.mk.injEq] at h
        obtain ⟨-, rfl⟩ := h
        exact (readBytes_sfx n r1 s2 r2 heq2).trans (readVarint_sfx heq1)
      · simp at h
    · simp at h
  | .seq t, buf, v, r => by
    intro h
    rw [readValue] at h
    split at h
    · rename_i n r1 heq1
      split at h
      · rename_i vs2 r2 heq2
        simp only [Except.ok.injEq, Prod.mk.injEq] at h
        obtain ⟨-, rfl⟩ := h
        exact (readElems_sfx t n r1 vs2 r2 heq2).trans (readVarint_sfx heq1)
      · simp at h
    · simp at h
  | .opt t, [], v, r => by
    intro h
    rw [readValue] at h
    simp at h
  | .opt t, b :: rest, v, r => by
    intro h
    rw [readValue] at h
    split at h
    · simp only [Except.ok.injEq, Prod.mk.injEq] at h
      obtain ⟨-, rfl⟩ := h
      exact List.suffix_cons b rest
    · split at h
      · rename_i v2 r2 heq
        simp only [Except.ok.injEq, Prod.mk.injEq] at h
        obtain ⟨-, rfl⟩ := h
        exact (readValue_sfx t rest v2 r2 heq).trans (List.suffix_cons b rest)
      · simp at h
  | .prod ts, buf, v, r => by
    intro h
    rw [readValue] at h
    split at h
    · rename_i vs2 r2 heq
      simp only [Except.ok.injEq, Prod.mk.injEq] at h
      obtain ⟨-, rfl⟩ := h
      exact readFields_sfx ts buf vs2 r2 heq
    · simp at h
  | .sum ts, [], v, r => by
    intro h
    rw [readValue] at h
    simp at h
  | .sum ts, b :: rest, v, r => by
    intro h
    rw [readValue] at h
    split at h
    · rename_i v2 r2 heq
      simp only [Except.ok.injEq, Prod.mk.injEq] at h
      obtain ⟨-, rfl⟩ := h
      exact (readVariant_sfx ts b rest v2 r2 heq).trans (List.suffix_cons b rest)
    · simp at h
termination_by t _ _ _ => (sizeOf t, 0)

theorem readFields_sfx : ∀ (ts : List Ty) (buf : List Nat) (vs : List Value) (r : List Nat),
    readFields ts buf = .ok (vs, r) → r <:+ buf
  | [], buf, vs, r => by
    intro h
    rw [readFields] at h
    simp only [Except.ok.injEq, Prod.mk.injEq] at h
    obtain ⟨-, rfl⟩ := h
    exact List.suffix_refl buf
  | t :: ts, buf, vs, r => by
    intro h
    rw [readFields] at h
    split at h
    · rename_i v2 r1 heq1
      split at h
      · rename_i vs2 r2 heq2
        simp only [Except.ok.injEq, Prod.mk.injEq] at h
        obtain ⟨-, rfl⟩ := h
        exact (readFields_sfx ts r1 vs2 r2 heq2).trans (readValue_sfx t buf v2 r1 heq1)
      · simp at h
    · simp at h
termination_by ts _ _ _ => (sizeOf ts, 0)

theorem readElems_sfx : ∀ (t : Ty) (n : Nat) (buf : List Nat) (vs : List Value) (r : List Nat),
    readElems t n buf = .ok (vs, r) → r <:+ buf
  | t, 0, buf, vs, r => by
    intro h
    rw [readElems] at h
    simp only [Except.ok.injEq, Prod.mk.injEq] at h
    obtain ⟨-, rfl⟩ := h
    exact List.suffix_refl buf
  | t, n + 1, buf, vs, r => by
    intro h
    rw [readElems] at h
    split at h
    · rename_i v2 r1 heq1
      split at h
      · rename_i vs2 r2 heq2
        simp only [Except.ok.injEq, Prod.mk.injEq] at h
        obtain ⟨-, rfl⟩ := h
        exact (readElems_sfx t n r1 vs2 r2 heq2).trans (readValue_sfx t buf v2 r1 heq1)
      · simp at h
    · simp at h
termination_by t n _ _ _ => (sizeOf t, n + 1)

theorem readVariant_sfx : ∀ (ts : List Ty) (k : Nat) (buf : List Nat) (v : Value) (r : List Nat),
    readVariant ts k buf = .ok (v, r) → r <:+ buf
  | [], k, buf, v, r => by
    intro h
    rw [readVariant] at h
    simp at h
  | t :: ts, 0, buf, v, r => by
    intro h
    rw [readVariant] at h
    exact readValue_sfx t buf v r h
  | t :: ts, k + 1, buf, v, r => by
    intro h
    rw [readVariant] at h
    exact readVariant_sfx ts k buf v r h
termination_by ts _ _ _ _ => (sizeOf ts, 0)

end

theorem varintLen_eq (n : Nat) : varintLen n = (encodeVarint n).length := by
  induction n using Nat.strong_induction_on with
  | _ n ih =>
    rw [varintLen, encodeVarint]
    by_cases h : n < 128
    · simp [h]
    · rw [if_neg h, if_neg h]
      simp [ih (n / 128) (by omega)]
      omega

mutual

theorem numBytes_len : ∀ v : Value, numBytes v = (serialize v).length
  | .u8 n => by simp [numBytes, serialize]
  | .u16 n => by simp [numBytes, serialize]
  | .u32 n => by simp [numBytes, serialize]
  | .boolean b => by simp [numBytes, serialize]
  | .varnat n => by simp [numBytes, serialize, varintLen_eq]
  | .str s => by simp [numBytes, serialize, varintLen_eq]
  | .seq vs => by simp [numBytes, serialize, varintLen_eq, numBytesList_len vs]
  | .opt none => by simp [numBytes, serialize]
  | .opt (some v) => by simp [numBytes, serialize, numBytes_len v]; omega
  | .prod fs => by simp [numBytes, serialize, numBytesList_len fs]
  | .sum tag p => by simp [numBytes, serialize, numBytes_len p]; omega

theorem numBytesList_len : ∀ vs : List Value, numBytesList vs = (serializeList vs).length
  | [] => by simp [numBytesList, serializeList]
  | v :: vs => by simp [numBytesList, serializeList, numBytes_len v, numBytesList_len vs]

end

/-- The spec's concrete scenario: a product `(count : u32 = 300, name : string
= "abc")` serializes as four little-endian bytes, a one-byte length varint and
the three byte characters, eight bytes in total. -/
theorem sampleEncoding :
    serialize (.prod [.u32 300, .str [97, 98, 99]]) = [44, 1, 0, 0, 3, 97, 98, 99] := by
  have h3 : encodeVarint 3 = [3] := by rw [encodeVarint]; norm_num
  simp only [serialize, serializeList, List.length_cons, List.length_nil, h3]
  norm_num

/-- C1 (round-trip law): for every value `v` of a generated type `t`,
deserializing the bytes produced by serializing `v`, starting from cursor 0,
succeeds and yields exactly `v`, consuming the whole encoding. -/
theorem claim1_round_trip {v : Value} {t : Ty} (h : HasTy v t) :
    readValue t (serialize v) = .ok (v, []) := by
  have h0 := read_ok h []
  simpa using h0

/-- C1 witness: the spec's scenario value round-trips concretely. -/
theorem claim1_round_trip_witness :
    readValue (.prod [.u32, .str]) (serialize (.prod [.u32 300, .str [97, 98, 99]])) =
      .ok (.prod [.u32 300, .str [97, 98, 99]], []) :=
  claim1_round_trip
    (HasTy.prodCons (HasTy.u32 (by norm_num))
      (HasTy.prodCons (HasTy.str (by norm_num) (by decide)) HasTy.prodNil))

/-- C2 (size agreement): for every value of a generated type, the size computed
by the generated NumBytes logic equals the number of bytes the generated Write
logic emits. -/
theorem claim2_size_agreement (v : Value) : numBytes v = (serialize v).length :=
  numBytes_len v

/-- C3 (digest): for the fixed hash algorithm, `digest(v) = hash(serialize(v))`;
being a pure function of the canonical bytes, the digest is identical across
repeated invocations, and any two values with byte-identical serializations
have identical digests. -/
theorem claim3_digest (hash : List Nat → List Nat) (v w : Value) :
    digestWith hash v = hash (serialize v) ∧
    (serialize v = serialize w → digestWith hash v = digestWith hash w) :=
  ⟨rfl, fun h => by simp only [digestWith, h]⟩

/-- C3 witness at a concrete hash function and value. -/
theorem claim3_digest_witness :
    digestWith List.reverse (Value.u8 5) = List.reverse (serialize (Value.u8 5)) ∧
    digestWith List.reverse (Value.u8 5) = digestWith List.reverse (Value.u8 5) :=
  ⟨(claim3_digest List.reverse (Value.u8 5) (Value.u8 5)).1,
   (claim3_digest List.reverse (Value.u8 5) (Value.u8 5)).2 rfl⟩

/-- C6 (underrun detection): deserializing any strict truncation of a value's
full encoding fails with an underrun error, never silently succeeding with
wrong data; and the decoder never reads past the buffer end: whenever decoding
succeeds, the unconsumed remainder is a suffix of the input buffer. -/
theorem claim6_underrun {v : Value} {t : Ty} (h : HasTy v t) :
    (∀ p, p <+: serialize v → p ≠ serialize v → readValue t p = .error .underrun) ∧
    (∀ buf v2 r, readValue t buf = .ok (v2, r) → r <:+ buf) :=
  ⟨read_trunc h, fun buf v2 r hr => readValue_sfx t buf v2 r hr⟩

/-- C6 witness: the one-byte truncation of the two-byte encoding of a u16
fails with an underrun. -/
theorem claim6_underrun_witness : readValue Ty.u16 [2] = .error DecodeErr.underrun := by
  have hty : HasTy (Value.u16 770) Ty.u16 := HasTy.u16 (by norm_num)
  have hser : serialize (Value.u16 770) = [2, 3] := by norm_num [serialize]
  have h := (claim6_underrun hty).1 [2]
  rw [hser] at h
  exact h ⟨[3], rfl⟩ (by simp)

theorem exBind_ok {ε α β : Type} (a : α) (f : α → Except ε β) :
    (Except.ok a >>= f) = f a := rfl

theorem exBind_err {ε α β : Type} (e : ε) (f : α → Except ε β) :
    ((Except.error e : Except ε α) >>= f) = .error e := rfl

theorem rootStep_none (a0 : Option String) : rootStep a0 none = .ok a0 := rfl

theorem rootStep_noident {m : RMeta} (h : getIdent m.metaPath = none) (a0 : Option String) :
    rootStep a0 (some m) = .error ("please add trait root path") := by
  simp [rootStep, h]

theorem rootStep_wf {p : MetaPath} (h : getIdent p = some ("eosio_core_root_path"))
    (a0 : Option String) (s : String) :
    rootStep a0 (some (.nameValue p (.str s))) = .ok (some s) := by
  simp [rootStep, RMeta.metaPath, h]

theorem rootStep_badlit {p : MetaPath} (h : getIdent p = some ("eosio_core_root_path"))
    (a0 : Option String) :
    rootStep a0 (some (.nameValue p .other)) = .error ("eosio_core_path must be a lit str") := by
  simp [rootStep, RMeta.metaPath, h]

theorem rootStep_list {p : MetaPath} {name : String} (h : getIdent p = some name)
    (a0 : Option String) : rootStep a0 (some (.listM p)) = .ok a0 := by
  simp only [rootStep, RMeta.metaPath, h]
  split <;> rfl

theorem rootStep_path {p : MetaPath} {name : String} (h : getIdent p = some name)
    (a0 : Option String) : rootStep a0 (some (.pathM p)) = .ok a0 := by
  simp only [rootStep, RMeta.metaPath, h]
  split <;> rfl

theorem rootStep_othername {m : RMeta} {name : String} (h : getIdent m.metaPath = some name)
    (hname : name ≠ "eosio_core_root_path") (a0 : Option String) :
    rootStep a0 (some m) = .ok a0 := by
  simp [rootStep, h, hname]

theorem rootStep_char : ∀ {a0 a1 : Option String} {a : RAttr},
    rootStep a0 a = .ok a1 → a1 = updOv a0 a := by
  intro a0 a1 a h
  cases a with
  | none =>
    simp only [rootStep_none, Except.ok.injEq] at h
    simp [updOv, wfOverride, ← h]
  | some m =>
    cases hid : getIdent m.metaPath with
    | none => rw [rootStep_noident hid] at h; simp at h
    | some name =>
      by_cases hname : name = "eosio_core_root_path"
      · subst hname
        cases m with
        | pathM p =>
          simp only [RMeta.metaPath] at hid
          rw [rootStep_path hid] at h
          simp only [Except.ok.injEq] at h
          simp [updOv, wfOverride, ← h]
        | listM p =>
          simp only [RMeta.metaPath] at hid
          rw [rootStep_list hid] at h
          simp only [Except.ok.injEq] at h
          simp [updOv, wfOverride, ← h]
        | nameValue p lit =>
          simp only [RMeta.metaPath] at hid
          cases lit with
          | str s =>
            rw [rootStep_wf hid] at h
            simp only [Except.ok.injEq] at h
            simp [updOv, wfOverride, hid, ← h]
          | other =>
            rw [rootStep_badlit hid] at h
            simp at h
      · rw [rootStep_othername hid hname] at h
        simp only [Except.ok.injEq] at h
        cases m with
        | pathM p => simp [updOv, wfOverride, ← h]
        | listM p => simp [updOv, wfOverride, ← h]
        | nameValue p lit =>
          cases lit with
          | str s =>
            simp only [RMeta.metaPath] at hid
            simp [updOv, wfOverride, hid, hname, ← h]
          | other => simp [updOv, wfOverride, ← h]

theorem rootFold_char : ∀ (attrs : List RAttr) (a0 acc : Option String),
    List.foldlM rootStep a0 attrs = .ok acc → acc = attrs.foldl updOv a0 := by
  intro attrs
  induction attrs with
  | nil =>
    intro a0 acc h
    simp only [List.foldlM_nil, pure, Except.pure, Except.ok.injEq] at h
    simp [List.foldl_nil, ← h]
  | cons a attrs ih =>
    intro a0 acc h
    rw [List.foldlM_cons] at h
    cases hs : rootStep a0 a with
    | error e => rw [hs, exBind_err] at h; simp at h
    | ok a1 =>
      rw [hs, exBind_ok] at h
      rw [List.foldl_cons, ← rootStep_char hs]
      exact ih a1 acc h

theorem foldl_updOv_none : ∀ (bs : List RAttr) (x : Option String),
    (∀ a ∈ bs, wfOverride a = none) → bs.foldl updOv x = x := by
  intro bs
  induction bs with
  | nil => intro x _; rfl
  | cons b bs ih =>
    intro x h
    rw [List.foldl_cons]
    rw [show updOv x b = x from by simp [updOv, h b (by simp)]]
    exact ih x (fun a ha => h a (by simp [ha]))

theorem parse_default (featureEosio : Bool) :
    parseModPath (DEFAULT_ROOT_PATH featureEosio) = some (defaultPath featureEosio) := by
  cases featureEosio <;> rfl

/-- C4 (root-path resolution is total and unambiguous): on every derive input,
`root_path` either aborts generation with a diagnostic (malformed attributes,
cf. C5 and C10) or resolves exactly one path, namely the parse of the last
well-formed override if one is present and of the compiled-in default
otherwise; a successful resolution is never ambiguous. -/
theorem claim4_root_path_unique (featureEosio : Bool) (attrs : List RAttr) :
    (∃ e, root_path featureEosio attrs = .error e) ∨
    ∃ p, root_path featureEosio attrs = .ok p ∧
      parseModPath ((lastOverride attrs).getD (DEFAULT_ROOT_PATH featureEosio)) = some p ∧
      ∀ q, root_path featureEosio attrs = .ok q → q = p := by
  cases hf : rootFold attrs with
  | error e => left; exact ⟨e, by simp only [root_path, hf]⟩
  | ok acc =>
    have hacc : acc = lastOverride attrs := rootFold_char attrs none acc hf
    cases hp : parseModPath (acc.getD (DEFAULT_ROOT_PATH featureEosio)) with
    | none =>
      left
      exact ⟨"bad path for eosio_core_root_path", by simp only [root_path, hf, hp]⟩
    | some p =>
      right
      refine ⟨p, by simp only [root_path, hf, hp], by rw [← hacc]; exact hp, ?_⟩
      intro q hq
      simp only [root_path, hf, hp, Except.ok.injEq] at hq
      exact hq.symm

/-- C4 witness: on the attribute-free input, resolution is settled. -/
theorem claim4_witness :
    (∃ e, root_path false [] = .error e) ∨
    ∃ p, root_path false [] = .ok p ∧
      parseModPath ((lastOverride []).getD (DEFAULT_ROOT_PATH false)) = some p ∧
      ∀ q, root_path false [] = .ok q → q = p :=
  claim4_root_path_unique false []

/-- C9 (defaulting and override order): under a fold that does not panic, an
input with no well-formed override resolves to exactly the compiled-in default
(`::eosio_core`, or `::eosio` under the internal-use-only-root-path-is-eosio
feature), and when several well-formed string overrides are attached, the last
one in attribute order is the one parsed and used. -/
theorem claim9_default_and_last (featureEosio : Bool) (attrs : List RAttr)
    (acc : Option String) (hf : rootFold attrs = .ok acc) :
    (lastOverride attrs = none → root_path featureEosio attrs = .ok (defaultPath featureEosio)) ∧
    (∀ as bs mp s q, attrs = as ++ some (.nameValue mp (.str s)) :: bs →
      getIdent mp = some ("eosio_core_root_path") →
      (∀ a ∈ bs, wfOverride a = none) →
      parseModPath s = some q →
      root_path featureEosio attrs = .ok q) := by
  have hacc : acc = lastOverride attrs := rootFold_char attrs none acc hf
  constructor
  · intro hnone
    have h0 : acc = none := by rw [hacc, hnone]
    subst h0
    simp only [root_path, hf, Option.getD_none, parse_default featureEosio]
  · intro as bs mp s q hattrs hid hbs hq
    have hlast : lastOverride attrs = some s := by
      rw [hattrs, lastOverride, List.foldl_append, List.foldl_cons]
      rw [show updOv (as.foldl updOv none) (some (.nameValue mp (.str s))) = some s from by
        simp [updOv, wfOverride, hid]]
      exact foldl_updOv_none bs (some s) hbs
    have h0 : acc = some s := by rw [hacc, hlast]
    subst h0
    simp only [root_path, hf, Option.getD_some, hq]

/-- C9 witness: with two well-formed overrides attached, the second one is the
one resolved. -/
theorem claim9_witness :
    root_path false
      [some (.nameValue ⟨["eosio_core_root_path"], false⟩ (.str ("::alpha"))),
       some (.nameValue ⟨["eosio_core_root_path"], false⟩ (.str ("::beta")))] =
      .ok ⟨["beta"], true⟩ :=
  (claim9_default_and_last false
      [some (.nameValue ⟨["eosio_core_root_path"], false⟩ (.str ("::alpha"))),
       some (.nameValue ⟨["eosio_core_root_path"], false⟩ (.str ("::beta")))]
      (some ("::beta")) (by rfl)).2
    [some (.nameValue ⟨["eosio_core_root_path"], false⟩ (.str ("::alpha")))] []
    ⟨["eosio_core_root_path"], false⟩ "::beta" ⟨["beta"], true⟩ rfl rfl (by simp) (by rfl)

/-- C5 counterexample: an `eosio_core_root_path` attribute in list form is a
shape other than a literal path string, yet generation does not fail — the
attribute is silently ignored and resolution succeeds with the default path. -/
theorem claim5_counterexample :
    root_path false [some (.listM ⟨["eosio_core_root_path"], false⟩)] =
      .ok ⟨["eosio_core"], true⟩ := by rfl

theorem root_path_congr {featureEosio : Bool} {attrs1 attrs2 : List RAttr}
    (h : rootFold attrs1 = rootFold attrs2) :
    root_path featureEosio attrs1 = root_path featureEosio attrs2 := by
  rw [root_path, root_path, h]

/-- C5 amended: an override attribute in name-value form whose literal is not a
string fails generation with the diagnostic `eosio_core_path must be a lit
str`, but the list and bare-path shapes of the attribute do not fail: they are
silently ignored, and resolution proceeds as if the attribute were absent. -/
theorem claim5_amended (featureEosio : Bool) (as bs : List RAttr) (mp : MetaPath)
    (acc : Option String) (hid : getIdent mp = some ("eosio_core_root_path"))
    (hf : rootFold as = .ok acc) :
    rootFold (as ++ some (.nameValue mp .other) :: bs) =
      .error ("eosio_core_path must be a lit str") ∧
    root_path featureEosio (as ++ some (.listM mp) :: bs) =
      root_path featureEosio (as ++ bs) ∧
    root_path featureEosio (as ++ some (.pathM mp) :: bs) =
      root_path featureEosio (as ++ bs) := by
  have hsplit : ∀ (a : RAttr) (bs2 : List RAttr), rootFold (as ++ a :: bs2) =
      (rootStep acc a >>= fun a1 => List.foldlM rootStep a1 bs2) := by
    intro a bs2
    rw [rootFold, List.foldlM_append]
    rw [show List.foldlM rootStep none as = rootFold as from rfl, hf, exBind_ok,
      List.foldlM_cons]
  refine ⟨?_, ?_, ?_⟩
  · rw [hsplit, rootStep_badlit hid, exBind_err]
  · apply root_path_congr
    rw [hsplit, rootStep_list hid, exBind_ok]
    rw [rootFold, List.foldlM_append]
    rw [show List.foldlM rootStep none as = rootFold as from rfl, hf, exBind_ok]
  · apply root_path_congr
    rw [hsplit, rootStep_path hid, exBind_ok]
    rw [rootFold, List.foldlM_append]
    rw [show List.foldlM rootStep none as = rootFold as from rfl, hf, exBind_ok]

/-- C5 amended witness: the three shapes at a concrete attribute. -/
theorem claim5_amended_witness :
    rootFold [some (.nameValue ⟨["eosio_core_root_path"], false⟩ RLit.other)] =
      .error ("eosio_core_path must be a lit str") ∧
    root_path false [some (.listM ⟨["eosio_core_root_path"], false⟩)] = root_path false [] ∧
    root_path false [some (.pathM ⟨["eosio_core_root_path"], false⟩)] = root_path false [] := by
  have h := claim5_amended false [] [] ⟨["eosio_core_root_path"], false⟩ none rfl rfl
  simpa using h

/-- C10 (panic reachability): an attribute whose parsed meta path is not a
single identifier (here the real-world two-segment attribute `rustfmt::skip`)
makes `root_path` hit `expect("please add trait root path")` — whether or not
a valid override is also attached, so the panic branch is reachable even for
inputs carrying a well-formed override or none at all. -/
theorem claim10_panic_reachable :
    root_path false
      [some (.nameValue ⟨["eosio_core_root_path"], false⟩ (.str ("::eosio_core"))),
       some (.pathM ⟨["rustfmt", "skip"], false⟩)] =
      .error ("please add trait root path") ∧
    root_path false [some (.pathM ⟨["rustfmt", "skip"], false⟩)] =
      .error ("please add trait root path") := ⟨rfl, rfl⟩

/-- C7 (Table metadata invariant): for a type deriving the Table capability,
marking two fields primary, or combining the singleton marker with any primary
or secondary key marker, fails at generation time (the generator returns a
diagnostic, never metadata). -/
theorem claim7_table_invariant (inp : TableInput) :
    (2 ≤ (primaryIxs inp.fields).length → ∃ e, deriveTableMeta inp = .error e) ∧
    (inp.singleton = true → hasKeyMarker inp.fields = true →
      ∃ e, deriveTableMeta inp = .error e) := by
  constructor
  · intro h2
    cases hn : inp.tableName with
    | none => exact ⟨"table name is required", by simp [deriveTableMeta, hn]⟩
    | some nm =>
      exact ⟨"duplicate primary key marker", by
        simp [deriveTableMeta, hn, show 1 < (primaryIxs inp.fields).length from by omega]⟩
  · intro hs hk
    cases hn : inp.tableName with
    | none => exact ⟨"table name is required", by simp [deriveTableMeta, hn]⟩
    | some nm =>
      by_cases h2 : 1 < (primaryIxs inp.fields).length
      · exact ⟨"duplicate primary key marker", by simp [deriveTableMeta, hn, h2]⟩
      · exact ⟨"singleton excludes key markers", by simp [deriveTableMeta, hn, h2, hs, hk]⟩

/-- C7 witness: two primary markers fail, and singleton plus a primary marker
fails. -/
theorem claim7_witness :
    (∃ e, deriveTableMeta ⟨some ("tbl"), false, [⟨true, false⟩, ⟨true, false⟩]⟩ = .error e) ∧
    (∃ e, deriveTableMeta ⟨some ("tbl"), true, [⟨true, false⟩]⟩ = .error e) :=
  ⟨(claim7_table_invariant ⟨some ("tbl"), false, [⟨true, false⟩, ⟨true, false⟩]⟩).1 (by decide),
   (claim7_table_invariant ⟨some ("tbl"), true, [⟨true, false⟩]⟩).2 rfl (by decide)⟩

/-- C8 counterexample: a non-200 response whose body decodes as neither the
success type nor an `ErrorMessage` yields a Reqwest transport error, not an
`ErrorMessage` error, so a non-200 status does not always yield an
`ErrorMessage` error. -/
theorem claim8_counterexample :
    clientGet (SendOutcome.responded (⟨500, none, none⟩ : HttpResponse Nat Nat)) =
      .error ClientError.reqwest := rfl

/-- C8 amended: the client classifies by status code: a 200 response whose body
decodes as the success type yields that value; a non-200 response whose body
decodes as an `ErrorMessage` yields an ErrorMessage error; when body decoding
fails, the call yields a Reqwest transport error instead; and no call of get or
post ever returns a success value unless the response status is 200. -/
theorem claim8_amended {T E : Type} (out : SendOutcome T E) :
    (∀ r t, out = .responded r → r.status = 200 → r.bodyAs = some t →
      clientGet out = .ok t ∧ clientPost out = .ok t) ∧
    (∀ r m, out = .responded r → r.status ≠ 200 → r.bodyErr = some m →
      clientGet out = .error (.errorMessage m) ∧ clientPost out = .error (.errorMessage m)) ∧
    (∀ t, clientGet out = .ok t → ∃ r, out = .responded r ∧ r.status = 200) ∧
    (∀ t, clientPost out = .ok t → ∃ r, out = .responded r ∧ r.status = 200) := by
  refine ⟨?_, ?_, ?_, ?_⟩
  · rintro r t rfl h200 hbody
    constructor <;> simp [clientGet, clientPost, h200, hbody]
  · rintro r m rfl hn hbody
    constructor <;> simp [clientGet, clientPost, hn, hbody]
  · intro t h
    cases out with
    | failed => simp [clientGet] at h
    | responded r =>
      refine ⟨r, rfl, ?_⟩
      by_contra hne
      cases hb : r.bodyErr with
      | none => simp [clientGet, hne, hb] at h
      | some m => simp [clientGet, hne, hb] at h
  · intro t h
    cases out with
    | failed => simp [clientPost] at h
    | responded r =>
      refine ⟨r, rfl, ?_⟩
      by_contra hne
      cases hb : r.bodyErr with
      | none => simp [clientPost, hne, hb] at h
      | some m => simp [clientPost, hne, hb] at h

/-- C8 amended witness: a 200 response with a decodable body succeeds; a 404
response with a decodable error body yields an ErrorMessage error. -/
theorem claim8_amended_witness :
    clientGet (SendOutcome.responded (⟨200, some 7, none⟩ : HttpResponse Nat Nat)) = .ok 7 ∧
    clientPost (SendOutcome.responded (⟨404, none, some 3⟩ : HttpResponse Nat Nat)) =
      .error (.errorMessage 3) :=
  ⟨((claim8_amended (SendOutcome.responded (⟨200, some 7, none⟩ : HttpResponse Nat Nat))).1
      ⟨200, some 7, none⟩ 7 rfl rfl rfl).1,
   ((claim8_amended (SendOutcome.responded (⟨404, none, some 3⟩ : HttpResponse Nat Nat))).2.1
      ⟨404, none, some 3⟩ 3 rfl (by decide) rfl).2⟩
